import Mathlib

/-!
Verification of the `PairingBatcher` accumulation algorithm
(`src/lib.rs` of `pairing-batcher`).

The Rust component is generic over a pairing engine `E`.  We embed it
shallowly: the scalar field `E::ScalarField` becomes a commutative ring
`R`, the first source group `E::G1` an additive commutative group `G1`
with an `R`-module structure (scalar multiplication of points), and the
second source group `E::G2` a type `G2` with decidable equality (the
canonical representation used as the hash-map key).  Affine-to-group
conversions (`.into()`) are identities of the abstract group elements,
so an equation is a list of `(G1 × G2)` pairs.  The `HashMap<E::G2, E::G1>`
is embedded as an association list with unique keys kept in insertion
order; `entry … and_modify … or_insert` updates the existing entry in
place or appends a fresh one, exactly as the Rust entry API does.
`finalize`'s prepared forms are abstract functions `G1 → P1`, `G2 → P2`.
-/

set_option linter.unusedSectionVars false

namespace PairingBatcherSpec

/-- The batcher state: the `g2_to_g1` accumulator map (embedded as an
association list in insertion order), the fixed `challenge`, and the
`running_challenge` coefficient. -/
structure PairingBatcher (R G1 G2 : Type) where
  g2_to_g1 : List (G2 × G1)
  challenge : R
  running_challenge : R
deriving DecidableEq

variable {R G1 G2 P1 P2 : Type}
variable [CommRing R] [AddCommGroup G1] [Module R G1] [DecidableEq G2]

/-- `HashMap::get`: the value stored at key `k`, if any. -/
def mapGet (m : List (G2 × G1)) (k : G2) : Option G1 :=
  match m with
  | [] => none
  | q :: rest => if q.1 = k then some q.2 else mapGet rest k

/-- `self.g2_to_g1.entry(g2).and_modify(|p| *p += g1).or_insert(g1)`:
add into the existing entry, or append a fresh one. -/
def entryAddOrInsert (m : List (G2 × G1)) (k : G2) (v : G1) : List (G2 × G1) :=
  match m with
  | [] => [(k, v)]
  | q :: rest => if q.1 = k then (q.1, q.2 + v) :: rest else q :: entryAddOrInsert rest k v

/-- Fold a list of `(G2, G1)` pairs into the map, left to right. -/
def foldPairs (m : List (G2 × G1)) (l : List (G2 × G1)) : List (G2 × G1) :=
  l.foldl (fun acc q => entryAddOrInsert acc q.1 q.2) m

/-- `update_mapping`: zip the G2 and G1 lists and fold each pair into
the accumulator map. -/
def update_mapping (m : List (G2 × G1)) (g2_points : List G2) (g1_points : List G1) :
    List (G2 × G1) :=
  foldPairs m (g2_points.zip g1_points)

/-- The collision scan of `add_pairing`: whether any of this equation's
G2 points is already a key of the map (the Rust `for`/`break` loop). -/
def hasCollision (m : List (G2 × G1)) (g2_points : List G2) : Bool :=
  g2_points.any (fun g2 => (mapGet m g2).isSome)

/-- `PairingBatcher::new(challenge)`: empty map, running coefficient one. -/
def new (challenge : R) : PairingBatcher R G1 G2 :=
  ⟨[], challenge, 1⟩

/-- `PairingBatcher::add_pairing(pairs)`: detect a collision against the
current map; if present, advance the running coefficient and scale every
G1 point by it; otherwise take the G1 points unscaled; then fold. -/
def add_pairing (b : PairingBatcher R G1 G2) (pairs : List (G1 × G2)) :
    PairingBatcher R G1 G2 :=
  let g2_points := pairs.map Prod.snd
  if hasCollision b.g2_to_g1 g2_points then
    let running := b.running_challenge * b.challenge
    let g1_points := pairs.map (fun p => running • p.1)
    ⟨update_mapping b.g2_to_g1 g2_points g1_points, b.challenge, running⟩
  else
    let g1_points := pairs.map Prod.fst
    ⟨update_mapping b.g2_to_g1 g2_points g1_points, b.challenge, b.running_challenge⟩

/-- `PairingBatcher::finalize()`: one pass over the map, emitting the
prepared G1 and prepared G2 of each entry at matching positions. -/
def finalize (prepG1 : G1 → P1) (prepG2 : G2 → P2) (b : PairingBatcher R G1 G2) :
    List P1 × List P2 :=
  (b.g2_to_g1.map (fun q => prepG1 q.2), b.g2_to_g1.map (fun q => prepG2 q.1))

/-- `finalize` as a state-passing call on `&self`: it returns the state
it was given, untouched, together with the read-out. -/
def finalize_call (prepG1 : G1 → P1) (prepG2 : G2 → P2) (b : PairingBatcher R G1 G2) :
    PairingBatcher R G1 G2 × (List P1 × List P2) :=
  (b, finalize prepG1 prepG2 b)

/-- A sequence of `add_pairing` calls. -/
def addAll (b : PairingBatcher R G1 G2) (eqs : List (List (G1 × G2))) :
    PairingBatcher R G1 G2 :=
  eqs.foldl add_pairing b

/-- The keys of the accumulator map. -/
def keys (m : List (G2 × G1)) : List G2 :=
  m.map Prod.fst

/-- The map has at most one entry per G2 value. -/
abbrev NodupKeys (m : List (G2 × G1)) : Prop :=
  (keys m).Nodup

/-- Sum of the G1 values of an association list that are paired with the
key `k` (an equation's total contribution to entry `k`). -/
def eqnSum (l : List (G2 × G1)) (k : G2) : G1 :=
  match l with
  | [] => 0
  | q :: rest => (if q.1 = k then q.2 else 0) + eqnSum rest k

/-- The coefficient `add_pairing` applies to this equation's G1 points:
the freshly advanced running coefficient on a collision, one otherwise. -/
def foldCoeff (b : PairingBatcher R G1 G2) (pairs : List (G1 × G2)) : R :=
  if hasCollision b.g2_to_g1 (pairs.map Prod.snd) then
    b.running_challenge * b.challenge
  else 1

/-- Number of calls in a sequence of `add_pairing` calls that detect a
collision, starting from state `b`. -/
def collisionCount (b : PairingBatcher R G1 G2) (eqs : List (List (G1 × G2))) : Nat :=
  match eqs with
  | [] => 0
  | e :: rest =>
      (if hasCollision b.g2_to_g1 (e.map Prod.snd) then 1 else 0) +
        collisionCount (add_pairing b e) rest

/-- Two equations touch disjoint sets of G2 values. -/
abbrev DisjointG2 (e1 e2 : List (G1 × G2)) : Prop :=
  ∀ k ∈ e1.map Prod.snd, k ∉ e2.map Prod.snd

/-! ### Basic lemmas about the association-list map -/

lemma mapGet_nil (k : G2) : mapGet ([] : List (G2 × G1)) k = none := rfl

lemma mapGet_cons (q : G2 × G1) (rest : List (G2 × G1)) (k : G2) :
    mapGet (q :: rest) k = if q.1 = k then some q.2 else mapGet rest k := rfl

lemma keys_nil : keys ([] : List (G2 × G1)) = [] := rfl

lemma keys_cons (q : G2 × G1) (rest : List (G2 × G1)) :
    keys (q :: rest) = q.1 :: keys rest := rfl

lemma eqnSum_nil (k : G2) : eqnSum ([] : List (G2 × G1)) k = 0 := rfl

lemma eqnSum_cons (q : G2 × G1) (rest : List (G2 × G1)) (k : G2) :
    eqnSum (q :: rest) k = (if q.1 = k then q.2 else 0) + eqnSum rest k := rfl

lemma foldPairs_nil (m : List (G2 × G1)) : foldPairs m [] = m := rfl

lemma foldPairs_cons (m : List (G2 × G1)) (q : G2 × G1) (rest : List (G2 × G1)) :
    foldPairs m (q :: rest) = foldPairs (entryAddOrInsert m q.1 q.2) rest := rfl

lemma mapGet_isSome_iff (m : List (G2 × G1)) (k : G2) :
    (mapGet m k).isSome = true ↔ k ∈ keys m := by
  induction m with
  | nil => simp [mapGet_nil, keys_nil]
  | cons q rest ih =>
      rw [mapGet_cons, keys_cons]
      by_cases h : q.1 = k
      · simp [h]
      · have h2 : ¬ k = q.1 := fun hh => h hh.symm
        simp [h, ih, h2]

lemma hasCollision_iff (m : List (G2 × G1)) (g2s : List G2) :
    hasCollision m g2s = true ↔ ∃ k ∈ g2s, k ∈ keys m := by
  simp [hasCollision, List.any_eq_true, mapGet_isSome_iff]

lemma mapGet_entryAddOrInsert (m : List (G2 × G1)) (k : G2) (v : G1) (k' : G2) :
    mapGet (entryAddOrInsert m k v) k' =
      if k' = k then some ((mapGet m k).getD 0 + v) else mapGet m k' := by
  induction m with
  | nil =>
      by_cases h : k' = k
      · subst h; simp [entryAddOrInsert, mapGet_cons, mapGet_nil]
      · have h2 : ¬ k = k' := fun hh => h hh.symm
        simp [entryAddOrInsert, mapGet_cons, mapGet_nil, h, h2]
  | cons q rest ih =>
      by_cases hqk : q.1 = k
      · by_cases hk' : k' = k
        · subst hk'
          simp [entryAddOrInsert, hqk, mapGet_cons]
        · have hq : ¬ q.1 = k' := fun hh => hk' (hh ▸ hqk)
          have hk2 : ¬ k = k' := fun hh => hk' hh.symm
          simp [entryAddOrInsert, hqk, mapGet_cons, hq, hk', hk2]
      · by_cases hq : q.1 = k'
        · have hk' : ¬ k' = k := fun hh => hqk (hq.trans hh)
          simp [entryAddOrInsert, hqk, mapGet_cons, hq, hk']
        · simp [entryAddOrInsert, hqk, mapGet_cons, hq, ih]

lemma keys_entryAddOrInsert (m : List (G2 × G1)) (k : G2) (v : G1) :
    keys (entryAddOrInsert m k v) = if k ∈ keys m then keys m else keys m ++ [k] := by
  induction m with
  | nil => simp [entryAddOrInsert, keys_nil, keys_cons]
  | cons q rest ih =>
      by_cases hqk : q.1 = k
      · simp [entryAddOrInsert, hqk, keys_cons]
      · have hne : ¬ k = q.1 := fun hh => hqk hh.symm
        by_cases hmem : k ∈ keys rest
        · simp [entryAddOrInsert, hqk, keys_cons, hne, hmem, ih]
        · simp [entryAddOrInsert, hqk, keys_cons, hne, hmem, ih]

lemma nodupKeys_entryAddOrInsert (m : List (G2 × G1)) (k : G2) (v : G1)
    (h : NodupKeys m) : NodupKeys (entryAddOrInsert m k v) := by
  rw [NodupKeys, keys_entryAddOrInsert]
  by_cases hmem : k ∈ keys m
  · simpa [hmem] using h
  · simp [hmem, List.nodup_append, h]

lemma eqnSum_of_not_mem (l : List (G2 × G1)) (k : G2) (h : k ∉ keys l) :
    eqnSum l k = 0 := by
  induction l with
  | nil => rfl
  | cons q rest ih =>
      rw [keys_cons, List.mem_cons] at h
      push_neg at h
      rw [eqnSum_cons, if_neg (fun hh => h.1 hh.symm), ih h.2, zero_add]

/-- The central characterization: looking up `k` after folding the pairs
`l` into the map gives the old value (or zero) plus the sum of the G1
values of `l` paired with `k`, when `k` occurs among `l`'s keys;
otherwise the old entry, untouched. -/
lemma mapGet_foldPairs (l : List (G2 × G1)) (m : List (G2 × G1)) (k : G2) :
    mapGet (foldPairs m l) k =
      if k ∈ keys l then some ((mapGet m k).getD 0 + eqnSum l k)
      else mapGet m k := by
  induction l generalizing m with
  | nil => simp [foldPairs_nil, keys_nil]
  | cons q rest ih =>
      rw [foldPairs_cons, ih, keys_cons, eqnSum_cons]
      by_cases hk : k = q.1
      · by_cases hmem : k ∈ keys rest
        · rw [hk] at hmem
          simp [mapGet_entryAddOrInsert, hk, hmem, add_assoc]
        · rw [hk] at hmem
          simp [mapGet_entryAddOrInsert, hk, hmem, eqnSum_of_not_mem rest q.1 hmem]
      · have hkq : ¬ q.1 = k := fun hh => hk hh.symm
        by_cases hmem : k ∈ keys rest
        · simp [mapGet_entryAddOrInsert, hmem, hk, hkq]
        · simp [mapGet_entryAddOrInsert, hmem, hk, hkq]

lemma keys_foldPairs_mem (l : List (G2 × G1)) (m : List (G2 × G1)) (k : G2) :
    k ∈ keys (foldPairs m l) ↔ k ∈ keys m ∨ k ∈ keys l := by
  rw [← mapGet_isSome_iff, mapGet_foldPairs]
  by_cases hmem : k ∈ keys l
  · simp [hmem]
  · simp [hmem, mapGet_isSome_iff]

lemma nodupKeys_foldPairs (l : List (G2 × G1)) (m : List (G2 × G1))
    (h : NodupKeys m) : NodupKeys (foldPairs m l) := by
  induction l generalizing m with
  | nil => simpa [foldPairs_nil]
  | cons q rest ih =>
      rw [foldPairs_cons]
      exact ih _ (nodupKeys_entryAddOrInsert m q.1 q.2 h)

/-! ### Lemmas about `add_pairing` -/

lemma add_pairing_of_collision (b : PairingBatcher R G1 G2) (pairs : List (G1 × G2))
    (h : hasCollision b.g2_to_g1 (pairs.map Prod.snd) = true) :
    add_pairing b pairs =
      ⟨update_mapping b.g2_to_g1 (pairs.map Prod.snd)
          (pairs.map (fun p => (b.running_challenge * b.challenge) • p.1)),
        b.challenge, b.running_challenge * b.challenge⟩ := by
  simp [add_pairing, h]

lemma add_pairing_of_no_collision (b : PairingBatcher R G1 G2) (pairs : List (G1 × G2))
    (h : hasCollision b.g2_to_g1 (pairs.map Prod.snd) = false) :
    add_pairing b pairs =
      ⟨update_mapping b.g2_to_g1 (pairs.map Prod.snd) (pairs.map Prod.fst),
        b.challenge, b.running_challenge⟩ := by
  simp [add_pairing, h]

lemma add_pairing_challenge (b : PairingBatcher R G1 G2) (pairs : List (G1 × G2)) :
    (add_pairing b pairs).challenge = b.challenge := by
  by_cases h : hasCollision b.g2_to_g1 (pairs.map Prod.snd) = true
  · rw [add_pairing_of_collision b pairs h]
  · rw [add_pairing_of_no_collision b pairs (by simpa using h)]

lemma add_pairing_running (b : PairingBatcher R G1 G2) (pairs : List (G1 × G2)) :
    (add_pairing b pairs).running_challenge =
      if hasCollision b.g2_to_g1 (pairs.map Prod.snd) = true then
        b.running_challenge * b.challenge
      else b.running_challenge := by
  by_cases h : hasCollision b.g2_to_g1 (pairs.map Prod.snd) = true
  · rw [add_pairing_of_collision b pairs h, if_pos h]
  · rw [add_pairing_of_no_collision b pairs (by simpa using h), if_neg h]

/-- The accumulator map after `add_pairing`: fold each `(G2, coeff • G1)`
pair of the equation, with the single per-call coefficient `foldCoeff`. -/
lemma add_pairing_g2_to_g1 (b : PairingBatcher R G1 G2) (pairs : List (G1 × G2)) :
    (add_pairing b pairs).g2_to_g1 =
      foldPairs b.g2_to_g1 (pairs.map (fun p => (p.2, foldCoeff b pairs • p.1))) := by
  by_cases h : hasCollision b.g2_to_g1 (pairs.map Prod.snd) = true
  · rw [add_pairing_of_collision b pairs h]
    simp [update_mapping, foldCoeff, h, List.zip_map']
  · rw [add_pairing_of_no_collision b pairs (by simpa using h)]
    simp [update_mapping, foldCoeff, h, List.zip_map', one_smul]

lemma keys_map_pair (pairs : List (G1 × G2)) (f : G1 × G2 → G1) :
    keys (pairs.map (fun p => (p.2, f p))) = pairs.map Prod.snd := by
  induction pairs with
  | nil => rfl
  | cons p rest ih => simp [keys_cons, ih]

/-! ### Claim theorems (first batch) -/

/-- C1: a call to `add_pairing` whose equation has at least one G2 value
already a key of the accumulator map multiplies the running coefficient
by the fixed challenge exactly once, and folds every G1 point of the
equation scaled by the newly advanced running coefficient. -/
theorem claim_C1_collision_advances_once_and_scales_all
    (b : PairingBatcher R G1 G2) (pairs : List (G1 × G2))
    (h : ∃ p ∈ pairs, (mapGet b.g2_to_g1 p.2).isSome = true) :
    add_pairing b pairs =
      ⟨update_mapping b.g2_to_g1 (pairs.map Prod.snd)
          (pairs.map (fun p => (b.running_challenge * b.challenge) • p.1)),
        b.challenge, b.running_challenge * b.challenge⟩ := by
  rcases h with ⟨p, hp, hs⟩
  refine add_pairing_of_collision b pairs ?_
  rw [hasCollision, List.any_eq_true]
  exact ⟨p.2, List.mem_map.mpr ⟨p, hp, rfl⟩, hs⟩

theorem claim_C1_witness :
    (∃ p ∈ [((1 : ℤ), (7 : ℤ)), (2, 8)],
        (mapGet [((7 : ℤ), (3 : ℤ))] p.2).isSome = true) ∧
    add_pairing (⟨[((7 : ℤ), (3 : ℤ))], 2, 5⟩ : PairingBatcher ℤ ℤ ℤ)
        [(1, 7), (2, 8)] =
      ⟨update_mapping [((7 : ℤ), (3 : ℤ))] ([((1 : ℤ), (7 : ℤ)), (2, 8)].map Prod.snd)
          ([((1 : ℤ), (7 : ℤ)), (2, 8)].map (fun p => ((5 : ℤ) * 2) • p.1)),
        2, 5 * 2⟩ :=
  ⟨by decide,
    claim_C1_collision_advances_once_and_scales_all
      (⟨[((7 : ℤ), (3 : ℤ))], 2, 5⟩ : PairingBatcher ℤ ℤ ℤ) [(1, 7), (2, 8)] (by decide)⟩

/-- C2: a call to `add_pairing` in which none of the equation's G2
values is already a key of the map — even if a G2 value repeats inside
the equation — folds the G1 points unscaled (coefficient the
multiplicative identity) and leaves the running coefficient unchanged. -/
theorem claim_C2_no_collision_folds_unscaled
    (b : PairingBatcher R G1 G2) (pairs : List (G1 × G2))
    (h : ∀ p ∈ pairs, mapGet b.g2_to_g1 p.2 = none) :
    add_pairing b pairs =
      ⟨update_mapping b.g2_to_g1 (pairs.map Prod.snd) (pairs.map Prod.fst),
        b.challenge, b.running_challenge⟩
    ∧ pairs.map Prod.fst = pairs.map (fun p => ((1 : R) • p.1)) := by
  have hc : hasCollision b.g2_to_g1 (pairs.map Prod.snd) = false := by
    rw [hasCollision, List.any_eq_false]
    intro g2 hg2
    rcases List.mem_map.mp hg2 with ⟨p, hp, rfl⟩
    simp [h p hp]
  exact ⟨add_pairing_of_no_collision b pairs hc, by simp [one_smul]⟩

theorem claim_C2_witness :
    (∀ p ∈ [((1 : ℤ), (7 : ℤ)), (2, 7)], mapGet [((5 : ℤ), (10 : ℤ))] p.2 = none) ∧
    (add_pairing (⟨[((5 : ℤ), (10 : ℤ))], 2, 4⟩ : PairingBatcher ℤ ℤ ℤ) [(1, 7), (2, 7)] =
        ⟨update_mapping [((5 : ℤ), (10 : ℤ))] ([((1 : ℤ), (7 : ℤ)), (2, 7)].map Prod.snd)
            ([((1 : ℤ), (7 : ℤ)), (2, 7)].map Prod.fst), 2, 4⟩
      ∧ [((1 : ℤ), (7 : ℤ)), (2, 7)].map Prod.fst =
          [((1 : ℤ), (7 : ℤ)), (2, 7)].map (fun p => ((1 : ℤ) • p.1))) :=
  ⟨by decide,
    claim_C2_no_collision_folds_unscaled
      (⟨[((5 : ℤ), (10 : ℤ))], 2, 4⟩ : PairingBatcher ℤ ℤ ℤ) [(1, 7), (2, 7)] (by decide)⟩

lemma addAll_nil (b : PairingBatcher R G1 G2) : addAll b [] = b := rfl

lemma addAll_cons (b : PairingBatcher R G1 G2) (e : List (G1 × G2))
    (rest : List (List (G1 × G2))) :
    addAll b (e :: rest) = addAll (add_pairing b e) rest := rfl

lemma addAll_challenge_running (eqs : List (List (G1 × G2))) (b : PairingBatcher R G1 G2) :
    (addAll b eqs).challenge = b.challenge ∧
    (addAll b eqs).running_challenge =
      b.running_challenge * b.challenge ^ collisionCount b eqs := by
  induction eqs generalizing b with
  | nil => simp [addAll_nil, collisionCount]
  | cons e rest ih =>
      rw [addAll_cons, collisionCount]
      obtain ⟨hc, hr⟩ := ih (add_pairing b e)
      refine ⟨by rw [hc, add_pairing_challenge], ?_⟩
      rw [hr, add_pairing_challenge, add_pairing_running]
      by_cases h : hasCollision b.g2_to_g1 (e.map Prod.snd) = true
      · rw [if_pos h, if_pos h, pow_add, pow_one]
        ring
      · rw [if_neg h, if_neg h, zero_add]

/-- C3: from `new challenge`, the running coefficient starts at the
multiplicative identity and, after any sequence of `add_pairing` calls,
equals `challenge` raised to the number of calls that detected a
collision; each call advances it by one factor of the challenge exactly
when it detects a collision, and the challenge itself never changes. -/
theorem claim_C3_running_is_challenge_power (c : R) (eqs : List (List (G1 × G2))) :
    (new c : PairingBatcher R G1 G2).running_challenge = 1 ∧
    (addAll (new c : PairingBatcher R G1 G2) eqs).challenge = c ∧
    (addAll (new c : PairingBatcher R G1 G2) eqs).running_challenge =
      c ^ collisionCount (new c : PairingBatcher R G1 G2) eqs ∧
    ∀ (b : PairingBatcher R G1 G2) (pairs : List (G1 × G2)),
      (add_pairing b pairs).running_challenge =
        if hasCollision b.g2_to_g1 (pairs.map Prod.snd) = true then
          b.running_challenge * b.challenge
        else b.running_challenge := by
  refine ⟨rfl, (addAll_challenge_running eqs _).1, ?_, add_pairing_running⟩
  have h := (addAll_challenge_running eqs (new c : PairingBatcher R G1 G2)).2
  simpa [new] using h

/-- C5: for every batcher state, `finalize` returns two sequences of the
same length, that length is the number of accumulator-map entries, and
the k-th elements of the two sequences are the prepared G1 value and the
prepared G2 key of the same (k-th) map entry. -/
theorem claim_C5_finalize_aligned_outputs (prepG1 : G1 → P1) (prepG2 : G2 → P2)
    (b : PairingBatcher R G1 G2) :
    (finalize prepG1 prepG2 b).1.length = b.g2_to_g1.length ∧
    (finalize prepG1 prepG2 b).2.length = b.g2_to_g1.length ∧
    ∀ k : Nat,
      (finalize prepG1 prepG2 b).1[k]? = (b.g2_to_g1[k]?).map (fun q => prepG1 q.2) ∧
      (finalize prepG1 prepG2 b).2[k]? = (b.g2_to_g1[k]?).map (fun q => prepG2 q.1) := by
  refine ⟨by simp [finalize], by simp [finalize], fun k => ⟨?_, ?_⟩⟩ <;>
    simp [finalize]

/-- C8: `finalize` is read-only — as a state-passing call it returns the
batcher state unchanged — and idempotent: calling it again on the state
it returned yields the identical pair of output sequences. -/
theorem claim_C8_finalize_readonly_idempotent (prepG1 : G1 → P1) (prepG2 : G2 → P2)
    (b : PairingBatcher R G1 G2) :
    (finalize_call prepG1 prepG2 b).1 = b ∧
    finalize_call prepG1 prepG2 ((finalize_call prepG1 prepG2 b).1) =
      finalize_call prepG1 prepG2 b :=
  ⟨rfl, rfl⟩

/-- C9: `finalize` on a freshly constructed batcher returns two empty
sequences (and, being a total function, produces no error). -/
theorem claim_C9_finalize_of_new_empty (prepG1 : G1 → P1) (prepG2 : G2 → P2) (c : R) :
    finalize prepG1 prepG2 (new c : PairingBatcher R G1 G2) = ([], []) :=
  rfl

/-- C10: `add_pairing` with an empty list of pairs is a no-op: no
collision is detected, the state (map, challenge, running coefficient)
is unchanged, and `finalize` afterwards returns what it returned
before. -/
theorem claim_C10_empty_equation_noop (prepG1 : G1 → P1) (prepG2 : G2 → P2)
    (b : PairingBatcher R G1 G2) :
    add_pairing b ([] : List (G1 × G2)) = b ∧
    hasCollision b.g2_to_g1 (([] : List (G1 × G2)).map Prod.snd) = false ∧
    finalize prepG1 prepG2 (add_pairing b ([] : List (G1 × G2))) =
      finalize prepG1 prepG2 b := by
  have h1 : add_pairing b ([] : List (G1 × G2)) = b := rfl
  exact ⟨h1, rfl, by rw [h1]⟩

/-- C4: the fold step of `add_pairing` adds each (possibly scaled) G1
value into the map entry of its G2 partner by group addition, inserting
fresh entries for new keys: afterwards, each G2 of the equation holds
its old value (zero if absent) plus the equation's scaled contribution,
all other entries are untouched, the key set is the old key set united
with the equation's G2 values, and keys stay pairwise distinct. -/
theorem claim_C4_fold_entrywise_addition
    (b : PairingBatcher R G1 G2) (pairs : List (G1 × G2))
    (hnd : NodupKeys b.g2_to_g1) :
    (∀ k, mapGet (add_pairing b pairs).g2_to_g1 k =
        if k ∈ pairs.map Prod.snd then
          some ((mapGet b.g2_to_g1 k).getD 0 +
            eqnSum (pairs.map (fun p => (p.2, foldCoeff b pairs • p.1))) k)
        else mapGet b.g2_to_g1 k) ∧
    (∀ k, k ∈ keys (add_pairing b pairs).g2_to_g1 ↔
        k ∈ keys b.g2_to_g1 ∨ k ∈ pairs.map Prod.snd) ∧
    NodupKeys (add_pairing b pairs).g2_to_g1 := by
  have hmap := add_pairing_g2_to_g1 b pairs
  have hkeys : keys (pairs.map (fun p => (p.2, foldCoeff b pairs • p.1))) =
      pairs.map Prod.snd := keys_map_pair pairs _
  refine ⟨fun k => ?_, fun k => ?_, ?_⟩
  · rw [hmap, mapGet_foldPairs, hkeys]
  · rw [hmap, keys_foldPairs_mem, hkeys]
  · rw [hmap]
    exact nodupKeys_foldPairs _ _ hnd

theorem claim_C4_witness :
    NodupKeys [((7 : ℤ), (3 : ℤ))] ∧
    (mapGet (add_pairing (⟨[((7 : ℤ), (3 : ℤ))], 2, 5⟩ : PairingBatcher ℤ ℤ ℤ)
        [(1, 7), (2, 8)]).g2_to_g1 8 =
      if (8 : ℤ) ∈ [((1 : ℤ), (7 : ℤ)), (2, 8)].map Prod.snd then
        some ((mapGet [((7 : ℤ), (3 : ℤ))] 8).getD 0 +
          eqnSum ([((1 : ℤ), (7 : ℤ)), (2, 8)].map
            (fun p => (p.2,
              foldCoeff (⟨[((7 : ℤ), (3 : ℤ))], 2, 5⟩ : PairingBatcher ℤ ℤ ℤ)
                [(1, 7), (2, 8)] • p.1))) 8)
      else mapGet [((7 : ℤ), (3 : ℤ))] 8) ∧
    ((7 : ℤ) ∈ keys (add_pairing (⟨[((7 : ℤ), (3 : ℤ))], 2, 5⟩ : PairingBatcher ℤ ℤ ℤ)
        [(1, 7), (2, 8)]).g2_to_g1 ↔
      (7 : ℤ) ∈ keys [((7 : ℤ), (3 : ℤ))] ∨
        (7 : ℤ) ∈ [((1 : ℤ), (7 : ℤ)), (2, 8)].map Prod.snd) ∧
    NodupKeys (add_pairing (⟨[((7 : ℤ), (3 : ℤ))], 2, 5⟩ : PairingBatcher ℤ ℤ ℤ)
        [(1, 7), (2, 8)]).g2_to_g1 :=
  ⟨by decide,
    (claim_C4_fold_entrywise_addition
      (⟨[((7 : ℤ), (3 : ℤ))], 2, 5⟩ : PairingBatcher ℤ ℤ ℤ) [(1, 7), (2, 8)]
      (by decide)).1 8,
    (claim_C4_fold_entrywise_addition
      (⟨[((7 : ℤ), (3 : ℤ))], 2, 5⟩ : PairingBatcher ℤ ℤ ℤ) [(1, 7), (2, 8)]
      (by decide)).2.1 7,
    (claim_C4_fold_entrywise_addition
      (⟨[((7 : ℤ), (3 : ℤ))], 2, 5⟩ : PairingBatcher ℤ ℤ ℤ) [(1, 7), (2, 8)]
      (by decide)).2.2⟩

/-! ### Scaling linearity (C7) -/

lemma eqnSum_map_smul (pairs : List (G1 × G2)) (f : G1 × G2 → G1) (s : R) (k : G2) :
    eqnSum (pairs.map (fun p => (p.2, s • f p))) k =
      s • eqnSum (pairs.map (fun p => (p.2, f p))) k := by
  induction pairs with
  | nil => simp [eqnSum_nil]
  | cons p rest ih =>
      by_cases h : p.2 = k <;> simp [eqnSum_cons, ih, smul_add, h]

/-- C7: pre-multiplying every G1 term of an equation by a scalar `s`
commutes with the fold: the challenge, running coefficient and key set
come out the same as for the unscaled equation (collision detection
depends only on the G2 values), and each entry's change — the equation's
contribution — is multiplied by `s`. -/
theorem claim_C7_scaling_linearity (b : PairingBatcher R G1 G2)
    (pairs : List (G1 × G2)) (s : R) :
    (add_pairing b (pairs.map (fun p => (s • p.1, p.2)))).challenge =
      (add_pairing b pairs).challenge ∧
    (add_pairing b (pairs.map (fun p => (s • p.1, p.2)))).running_challenge =
      (add_pairing b pairs).running_challenge ∧
    (∀ k, (mapGet (add_pairing b (pairs.map (fun p => (s • p.1, p.2)))).g2_to_g1 k).isSome =
        (mapGet (add_pairing b pairs).g2_to_g1 k).isSome) ∧
    ∀ k, (mapGet (add_pairing b (pairs.map (fun p => (s • p.1, p.2)))).g2_to_g1 k).getD 0 =
        (mapGet b.g2_to_g1 k).getD 0 +
          s • ((mapGet (add_pairing b pairs).g2_to_g1 k).getD 0 -
            (mapGet b.g2_to_g1 k).getD 0) := by
  have hsnd : (pairs.map (fun p => (s • p.1, p.2))).map Prod.snd = pairs.map Prod.snd := by
    simp [List.map_map]
  have hcoeff : foldCoeff b (pairs.map (fun p => (s • p.1, p.2))) = foldCoeff b pairs := by
    rw [foldCoeff, foldCoeff, hsnd]
  have hms : (add_pairing b (pairs.map (fun p => (s • p.1, p.2)))).g2_to_g1 =
      foldPairs b.g2_to_g1
        (pairs.map (fun p => (p.2, s • (foldCoeff b pairs • p.1)))) := by
    rw [add_pairing_g2_to_g1, hcoeff, List.map_map]
    refine congrArg _ (List.map_congr_left fun p _ => ?_)
    simp [smul_smul, mul_comm]
  have hm1 : (add_pairing b pairs).g2_to_g1 =
      foldPairs b.g2_to_g1 (pairs.map (fun p => (p.2, foldCoeff b pairs • p.1))) :=
    add_pairing_g2_to_g1 b pairs
  have hkeys_s : keys (pairs.map (fun p => (p.2, s • (foldCoeff b pairs • p.1)))) =
      pairs.map Prod.snd := keys_map_pair pairs _
  have hkeys_1 : keys (pairs.map (fun p => (p.2, foldCoeff b pairs • p.1))) =
      pairs.map Prod.snd := keys_map_pair pairs _
  refine ⟨?_, ?_, fun k => ?_, fun k => ?_⟩
  · rw [add_pairing_challenge, add_pairing_challenge]
  · rw [add_pairing_running, add_pairing_running, hsnd]
  · rw [hms, hm1, mapGet_foldPairs, mapGet_foldPairs, hkeys_s, hkeys_1]
    by_cases hmem : k ∈ pairs.map Prod.snd <;> simp [hmem]
  · rw [hms, hm1, mapGet_foldPairs, mapGet_foldPairs, hkeys_s, hkeys_1]
    by_cases hmem : k ∈ pairs.map Prod.snd
    · rw [if_pos hmem, if_pos hmem]
      simp [eqnSum_map_smul pairs (fun p => foldCoeff b pairs • p.1) s k, add_sub_cancel_left]
    · rw [if_neg hmem, if_neg hmem]
      simp

/-! ### Disjoint equations (C6) -/

lemma mapGet_addAll_untouched (eqs : List (List (G1 × G2))) (b : PairingBatcher R G1 G2)
    (k : G2) (h : ∀ e ∈ eqs, k ∉ e.map Prod.snd) :
    mapGet (addAll b eqs).g2_to_g1 k = mapGet b.g2_to_g1 k := by
  induction eqs generalizing b with
  | nil => rw [addAll_nil]
  | cons e rest ih =>
      rw [addAll_cons, ih _ (fun e' he' => h e' (List.mem_cons_of_mem _ he')),
        add_pairing_g2_to_g1, mapGet_foldPairs, keys_map_pair,
        if_neg (h e (List.mem_cons_self e rest))]

lemma length_keys (m : List (G2 × G1)) : (keys m).length = m.length := by
  simp [keys]

lemma length_foldPairs (l : List (G2 × G1)) (m : List (G2 × G1)) :
    (foldPairs m l).length =
      m.length + ((keys l).toFinset \ (keys m).toFinset).card := by
  induction l generalizing m with
  | nil => simp [foldPairs_nil, keys_nil]
  | cons q rest ih =>
      rw [foldPairs_cons, ih]
      have hlen : (entryAddOrInsert m q.1 q.2).length =
          if q.1 ∈ keys m then m.length else m.length + 1 := by
        rw [← length_keys, keys_entryAddOrInsert]
        by_cases h : q.1 ∈ keys m
        · rw [if_pos h, if_pos h, length_keys]
        · rw [if_neg h, if_neg h, List.length_append, length_keys]
          rfl
      have hkf : (keys (entryAddOrInsert m q.1 q.2)).toFinset =
          insert q.1 (keys m).toFinset := by
        rw [keys_entryAddOrInsert]
        by_cases h : q.1 ∈ keys m
        · rw [if_pos h]
          exact (Finset.insert_eq_self.mpr (List.mem_toFinset.mpr h)).symm
        · rw [if_neg h]
          simp [List.toFinset_append, Finset.union_comm, Finset.insert_eq]
      rw [hlen, hkf, keys_cons, List.toFinset_cons]
      by_cases h : q.1 ∈ keys m
      · rw [if_pos h, Finset.insert_eq_self.mpr (List.mem_toFinset.mpr h),
          Finset.insert_sdiff_of_mem _ (List.mem_toFinset.mpr h)]
      · rw [if_neg h,
          Finset.insert_sdiff_of_not_mem _ (fun hh => h (List.mem_toFinset.mp hh)),
          Finset.sdiff_insert]
        by_cases ha : q.1 ∈ (keys rest).toFinset \ (keys m).toFinset
        · rw [Finset.card_erase_of_mem ha, Finset.insert_eq_self.mpr ha]
          have hpos : 0 < ((keys rest).toFinset \ (keys m).toFinset).card :=
            Finset.card_pos.mpr ⟨q.1, ha⟩
          omega
        · rw [Finset.erase_eq_of_not_mem ha, Finset.card_insert_of_not_mem ha]
          omega

lemma hasCollision_eq_false (m : List (G2 × G1)) (g2s : List G2)
    (h : ∀ k ∈ g2s, k ∉ keys m) : hasCollision m g2s = false := by
  cases hc : hasCollision m g2s
  · rfl
  · rcases (hasCollision_iff m g2s).mp hc with ⟨k, hk, hkm⟩
    exact absurd hkm (h k hk)

lemma add_pairing_map_fresh (b : PairingBatcher R G1 G2) (e : List (G1 × G2))
    (h : hasCollision b.g2_to_g1 (e.map Prod.snd) = false) :
    (add_pairing b e).g2_to_g1 =
      foldPairs b.g2_to_g1 (e.map (fun p => (p.2, p.1))) := by
  have hco : foldCoeff b e = 1 := by simp [foldCoeff, h]
  rw [add_pairing_g2_to_g1, hco]
  exact congrArg _ (List.map_congr_left fun p _ => by rw [one_smul])

/-- The workhorse for C6: folding pairwise-G2-disjoint equations whose
G2 values are all fresh for the current map leaves the running
coefficient alone, grows the map by each equation's distinct-G2 count,
and stores at each G2 value the unscaled G1 sum of its own equation. -/
lemma addAll_fresh_disjoint (eqs : List (List (G1 × G2))) (b : PairingBatcher R G1 G2)
    (hfresh : ∀ e ∈ eqs, ∀ k ∈ e.map Prod.snd, k ∉ keys b.g2_to_g1)
    (hdisj : List.Pairwise DisjointG2 eqs) :
    (addAll b eqs).running_challenge = b.running_challenge ∧
    (addAll b eqs).g2_to_g1.length =
      b.g2_to_g1.length + (eqs.map (fun e => (e.map Prod.snd).toFinset.card)).sum ∧
    ∀ e ∈ eqs, ∀ k ∈ e.map Prod.snd,
      mapGet (addAll b eqs).g2_to_g1 k =
        some (eqnSum (e.map (fun p => (p.2, p.1))) k) := by
  induction eqs generalizing b with
  | nil => simp [addAll_nil]
  | cons e rest ih =>
      obtain ⟨hde, hdr⟩ := List.pairwise_cons.mp hdisj
      have hfe : ∀ k ∈ e.map Prod.snd, k ∉ keys b.g2_to_g1 :=
        hfresh e (List.mem_cons_self e rest)
      have hcol : hasCollision b.g2_to_g1 (e.map Prod.snd) = false :=
        hasCollision_eq_false _ _ hfe
      have hmape : (add_pairing b e).g2_to_g1 =
          foldPairs b.g2_to_g1 (e.map (fun p => (p.2, p.1))) :=
        add_pairing_map_fresh b e hcol
      have hkeyse : keys (e.map (fun p => (p.2, p.1))) = e.map Prod.snd :=
        keys_map_pair e _
      have hkeymem : ∀ k, k ∈ keys (add_pairing b e).g2_to_g1 ↔
          k ∈ keys b.g2_to_g1 ∨ k ∈ e.map Prod.snd := by
        intro k
        rw [hmape, keys_foldPairs_mem, hkeyse]
      have hfresh' : ∀ e' ∈ rest, ∀ k ∈ e'.map Prod.snd,
          k ∉ keys (add_pairing b e).g2_to_g1 := by
        intro e' he' k hk hmem
        rcases (hkeymem k).mp hmem with h | h
        · exact hfresh e' (List.mem_cons_of_mem e he') k hk h
        · exact hde e' he' k h hk
      obtain ⟨ihr, ihl, ihe⟩ := ih (add_pairing b e) hfresh' hdr
      have hrun : (add_pairing b e).running_challenge = b.running_challenge := by
        rw [add_pairing_running, if_neg (by simp [hcol])]
      have hlen1 : (add_pairing b e).g2_to_g1.length =
          b.g2_to_g1.length + (e.map Prod.snd).toFinset.card := by
        rw [hmape, length_foldPairs, hkeyse]
        congr 1
        rw [Finset.sdiff_eq_self_iff_disjoint.mpr
          (Finset.disjoint_left.mpr
            (fun a ha hb => hfe a (List.mem_toFinset.mp ha) (List.mem_toFinset.mp hb)))]
      refine ⟨?_, ?_, ?_⟩
      · rw [addAll_cons, ihr, hrun]
      · rw [addAll_cons, ihl, hlen1, List.map_cons, List.sum_cons]
        omega
      · intro e' he' k hk
        rw [addAll_cons]
        rcases List.mem_cons.mp he' with rfl | he'
        · have huntouched : ∀ e'' ∈ rest, k ∉ e''.map Prod.snd :=
            fun e'' he'' => hde e'' he'' k hk
          have hnone : mapGet b.g2_to_g1 k = none :=
            Option.not_isSome_iff_eq_none.mp
              (fun hs => hfe k hk ((mapGet_isSome_iff _ _).mp hs))
          rw [mapGet_addAll_untouched rest _ k huntouched, hmape, mapGet_foldPairs,
            hkeyse, if_pos hk, hnone]
          simp
        · exact ihe e' he' k hk

/-- C6: submitting equations whose G2 values are pairwise disjoint
across equations yields a map with exactly the sum of the equations'
distinct-G2 counts as entries, each entry the unscaled G1 sum of the
values paired with that G2 in its equation, while the running
coefficient never advances from the multiplicative identity. -/
theorem claim_C6_disjoint_no_interaction (c : R) (eqs : List (List (G1 × G2)))
    (hdisj : List.Pairwise DisjointG2 eqs) :
    (addAll (new c : PairingBatcher R G1 G2) eqs).running_challenge = 1 ∧
    (addAll (new c : PairingBatcher R G1 G2) eqs).g2_to_g1.length =
      (eqs.map (fun e => (e.map Prod.snd).toFinset.card)).sum ∧
    ∀ e ∈ eqs, ∀ k ∈ e.map Prod.snd,
      mapGet (addAll (new c : PairingBatcher R G1 G2) eqs).g2_to_g1 k =
        some (eqnSum (e.map (fun p => (p.2, p.1))) k) := by
  have hfresh : ∀ e ∈ eqs, ∀ k ∈ e.map Prod.snd,
      k ∉ keys (new c : PairingBatcher R G1 G2).g2_to_g1 := by
    intro e _ k _ hmem
    simp [new, keys_nil] at hmem
  obtain ⟨h1, h2, h3⟩ := addAll_fresh_disjoint eqs (new c) hfresh hdisj
  exact ⟨by rw [h1]; rfl, by simpa [new] using h2, h3⟩

theorem claim_C6_witness :
    List.Pairwise DisjointG2 [[((1 : ℤ), (7 : ℤ)), (2, 8)], [((3 : ℤ), (9 : ℤ))]] ∧
    (addAll (new 5 : PairingBatcher ℤ ℤ ℤ)
        [[(1, 7), (2, 8)], [(3, 9)]]).running_challenge = 1 ∧
    (addAll (new 5 : PairingBatcher ℤ ℤ ℤ) [[(1, 7), (2, 8)], [(3, 9)]]).g2_to_g1.length =
      ([[((1 : ℤ), (7 : ℤ)), (2, 8)], [((3 : ℤ), (9 : ℤ))]].map
        (fun e => (e.map Prod.snd).toFinset.card)).sum ∧
    mapGet (addAll (new 5 : PairingBatcher ℤ ℤ ℤ)
        [[(1, 7), (2, 8)], [(3, 9)]]).g2_to_g1 7 =
      some (eqnSum ([((1 : ℤ), (7 : ℤ)), (2, 8)].map (fun p => (p.2, p.1))) 7) :=
  ⟨by decide,
    (claim_C6_disjoint_no_interaction 5 [[(1, 7), (2, 8)], [(3, 9)]] (by decide)).1,
    (claim_C6_disjoint_no_interaction 5 [[(1, 7), (2, 8)], [(3, 9)]] (by decide)).2.1,
    (claim_C6_disjoint_no_interaction 5 [[(1, 7), (2, 8)], [(3, 9)]] (by decide)).2.2
      [(1, 7), (2, 8)] (by decide) 7 (by decide)⟩

end PairingBatcherSpec
